import Mathlib

/-!
Shallow embedding of the `Evaluation` class of `src/models/training.py`
(repository `Retriever`): the ranking-metrics engine (`calculate_ranks`,
average precision, mean average precision, confusion-matrix `metrics`,
normalized discounted cumulative gain, mean reciprocal rank), the greedy
forward feature-selection loop and the hyperparameter-optimization glue.

Modelling conventions:
* a pandas `DataFrame` of scored results is a `List Row`, one `Row` per
  data-frame row, in data-frame order;
* Python floats are modelled as `ℚ` (all the arithmetic the claims touch is
  exact: sums, quotients, comparisons against `0.5`);
* `np.log2` is abstracted as a parameter `lg : ℕ → ℚ` (it is only ever
  applied to the integers `rank + 1` and `index + 2`); theorems that need
  positivity of the discount assume it explicitly;
* a Python exception (`ZeroDivisionError` from an int `0 / 0`, `TypeError`
  from `float()` of an empty series) is modelled by `Option`: `none` means
  the call raises;
* `pandas.sort_values` with the source's default `kind='quicksort'` (numpy
  introsort) is documented non-stable: its contract, formalised as
  `IsSortValuesDesc`, only promises some permutation of the rows sorted on
  the key, with no tie order. The functional model `sortByConfDesc` fixes
  one admissible refinement of that contract (Mathlib's `insertionSort`);
  all theorems below about sorted data are tie-order independent (ranks and
  filters are taken over whatever permutation the sort returns, and equal
  grades contribute equal gains), except the tie-stability property itself,
  which `quicksort_contract_not_stable` shows the contract does not entail.
-/

namespace Evaluation

/-- One scored query–document pair: the `results` data frame built in
`compute_metrics` has columns `confidence`, `qID`, `pID`, `relevant`. -/
structure Row where
  confidence : ℚ
  qID : ℕ
  pID : ℕ
  relevant : ℕ
  deriving DecidableEq, Repr

/-- Comparator behind `results.sort_values('confidence', ascending=False)`:
row `a` may come before row `b` when `b.confidence ≤ a.confidence`. -/
def confGE (a b : Row) : Prop := b.confidence ≤ a.confidence

instance : DecidableRel confGE :=
  fun a b => inferInstanceAs (Decidable (b.confidence ≤ a.confidence))

instance : IsTotal Row confGE := ⟨fun a b => le_total b.confidence a.confidence⟩

instance : IsTrans Row confGE := ⟨fun _ _ _ h1 h2 => le_trans h2 h1⟩

/-- `results.sort_values('confidence', ascending=False)` as a stable
descending sort. -/
def sortByConfDesc (l : List Row) : List Row := List.insertionSort confGE l

/-- `ranks['rank'] = np.arange(1, len(ranks) + 1)`: attach 1-based ranks to
the rows of a (sorted) list, starting at `n`. -/
def rankFrom (n : ℕ) : List Row → List (ℕ × Row)
  | [] => []
  | r :: rs => (n, r) :: rankFrom (n + 1) rs

/-- `Evaluation.calculate_ranks`: sort by confidence descending, attach
ranks `1..N`, keep only rows with `relevant >= 1` (the re-indexing
`ranks.index = np.arange(1, len(ranks) + 1)` is the list position). -/
def calculate_ranks (results : List Row) : List (ℕ × Row) :=
  (rankFrom 1 (sortByConfDesc results)).filter (fun p => 1 ≤ p.2.relevant)

/-- `results['qID'].unique()`: distinct values in order of first
appearance. -/
def pdUniqueAux : List ℕ → List ℕ → List ℕ
  | [], _ => []
  | a :: l, seen => if a ∈ seen then pdUniqueAux l seen else a :: pdUniqueAux l (a :: seen)

/-- Distinct qID values of a result set, in order of first appearance. -/
def uniqueQIDs (results : List Row) : List ℕ := pdUniqueAux (results.map Row.qID) []

/-- `results[results['qID'] == qID]`. -/
def groupQ (results : List Row) (q : ℕ) : List Row :=
  results.filter (fun r => r.qID = q)

/-- Comparator behind `ranks.sort_values('relevant', ascending=False)` on
rank-tagged rows. -/
def relGE (a b : ℕ × Row) : Prop := b.2.relevant ≤ a.2.relevant

instance : DecidableRel relGE :=
  fun a b => inferInstanceAs (Decidable (b.2.relevant ≤ a.2.relevant))

instance : IsTotal (ℕ × Row) relGE := ⟨fun a b => Nat.le_total b.2.relevant a.2.relevant⟩

instance : IsTrans (ℕ × Row) relGE := ⟨fun _ _ _ h1 h2 => le_trans h2 h1⟩

/-- `ranks.sort_values('relevant', ascending=False)` as a stable descending
sort on the `relevant` column. -/
def sortByRelDesc (l : List (ℕ × Row)) : List (ℕ × Row) := List.insertionSort relGE l

/-- Comparator behind `ranks.sort_values('rank', ascending=True)`. -/
def rankLE (a b : ℕ × Row) : Prop := a.1 ≤ b.1

instance : DecidableRel rankLE := fun a b => inferInstanceAs (Decidable (a.1 ≤ b.1))

instance : IsTotal (ℕ × Row) rankLE := ⟨fun a b => Nat.le_total a.1 b.1⟩

instance : IsTrans (ℕ × Row) rankLE := ⟨fun _ _ _ h1 h2 => le_trans h1 h2⟩

/-- `ranks.sort_values('rank', ascending=True)` as a stable ascending sort
on the `rank` column. -/
def sortByRankAsc (l : List (ℕ × Row)) : List (ℕ × Row) := List.insertionSort rankLE l

/-- The loop of `average_precision_score`: `for index, data in
ranks.iterrows(): sum += index / data['rank']`, where `index` runs over the
re-assigned index `1..R` (here: the list position starting at `i`). -/
def apSum : ℕ → List (ℕ × Row) → ℚ
  | _, [] => 0
  | i, p :: ps => (i : ℚ) / (p.1 : ℚ) + apSum (i + 1) ps

/-- `Evaluation.average_precision_score`; `none` models the
`ZeroDivisionError` of `sum / len(ranks)` when no relevant row was
retrieved. -/
def average_precision_score (results : List Row) : Option ℚ :=
  if (calculate_ranks results).length = 0 then none
  else some (apSum 1 (calculate_ranks results) / ((calculate_ranks results).length : ℚ))

/-- Accumulation of per-query scores as in the Python loops `for qID in
qIDs: sum += f(qID)`: the first raising call aborts the whole computation
(`Option.bind`). -/
def optionSumBy (f : ℕ → Option ℚ) (l : List ℕ) : Option ℚ :=
  l.foldl (fun acc q => acc.bind (fun s => (f q).map (fun v => s + v))) (some 0)

/-- `Evaluation.mean_average_precision_score`: per-qID average of
`average_precision_score`; `none` models a raise inside the loop or the
`ZeroDivisionError` of dividing by the number of distinct qIDs. -/
def mean_average_precision_score (results : List Row) : Option ℚ :=
  (optionSumBy (fun q => average_precision_score (groupQ results q)) (uniqueQIDs results)).bind
    (fun s => if (uniqueQIDs results).length = 0 then none
      else some (s / ((uniqueQIDs results).length : ℚ)))

/-- `results.sort_values('confidence', ascending=False).groupby('qID').head(k)`:
keep a row when fewer than `k` rows of its qID group were kept before it
(`seen` counts the kept rows per qID). -/
def topKPerGroup (k : ℕ) : List Row → (ℕ → ℕ) → List Row
  | [], _ => []
  | r :: rs, seen =>
    if seen r.qID < k then
      r :: topKPerGroup k rs (fun q => if q = r.qID then seen q + 1 else seen q)
    else topKPerGroup k rs seen

/-- The optional top-k truncation at the head of `Evaluation.metrics`. -/
def truncateTopK (results : List Row) : Option ℕ → List Row
  | none => results
  | some k => topKPerGroup k (sortByConfDesc results) (fun _ => 0)

/-- `results['confidence'] >= 0.5`. -/
def predictedPositive (r : Row) : Prop := 1 / 2 ≤ r.confidence

instance : DecidablePred predictedPositive :=
  fun r => inferInstanceAs (Decidable (1 / 2 ≤ r.confidence))

/-- True positives: `confidence >= 0.5` and `relevant >= 1`. -/
def tp (l : List Row) : ℕ :=
  (l.filter (fun r => decide (predictedPositive r) && decide (1 ≤ r.relevant))).length

/-- False positives: `confidence >= 0.5` and `relevant == 0`. -/
def fp (l : List Row) : ℕ :=
  (l.filter (fun r => decide (predictedPositive r) && decide (r.relevant = 0))).length

/-- True negatives: `confidence < 0.5` and `relevant == 0`. -/
def tn (l : List Row) : ℕ :=
  (l.filter (fun r => decide (¬ predictedPositive r) && decide (r.relevant = 0))).length

/-- False negatives: `confidence < 0.5` and `relevant >= 1`. -/
def fn (l : List Row) : ℕ :=
  (l.filter (fun r => decide (¬ predictedPositive r) && decide (1 ≤ r.relevant))).length

/-- `accuracy = (tp + tn) / (tp + fp + tn + fn)` (unguarded in the
source). -/
def accuracyOf (t f n m : ℕ) : ℚ := ((t + n : ℕ) : ℚ) / ((t + f + n + m : ℕ) : ℚ)

/-- `precision = tp / (tp + fp)`, `np.nan` (modelled `none`) on
`ZeroDivisionError`. -/
def precisionOf (t f : ℕ) : Option ℚ :=
  if t + f = 0 then none else some ((t : ℚ) / ((t + f : ℕ) : ℚ))

/-- `recall = tp / (tp + fn)`, `np.nan` (modelled `none`) on
`ZeroDivisionError`. -/
def recallOf (t m : ℕ) : Option ℚ :=
  if t + m = 0 then none else some ((t : ℚ) / ((t + m : ℕ) : ℚ))

/-- `f_score = (2 * precision * recall) / (precision + recall)`: `np.nan`
(modelled `none`) when either operand is already NaN (its float arithmetic
propagates) or when the float denominator is zero
(`ZeroDivisionError` caught). -/
def fscoreOf : Option ℚ → Option ℚ → Option ℚ
  | some p, some r => if p + r = 0 then none else some (2 * p * r / (p + r))
  | _, _ => none

/-- `Evaluation.metrics`: outer `none` models the unguarded
`ZeroDivisionError` of the accuracy quotient on an empty (truncated) result
set. -/
def metrics (results : List Row) (k : Option ℕ) :
    Option (ℚ × Option ℚ × Option ℚ × Option ℚ) :=
  if tp (truncateTopK results k) + fp (truncateTopK results k) +
      tn (truncateTopK results k) + fn (truncateTopK results k) = 0 then none
  else some (accuracyOf (tp (truncateTopK results k)) (fp (truncateTopK results k))
      (tn (truncateTopK results k)) (fn (truncateTopK results k)),
    precisionOf (tp (truncateTopK results k)) (fp (truncateTopK results k)),
    recallOf (tp (truncateTopK results k)) (fn (truncateTopK results k)),
    fscoreOf (precisionOf (tp (truncateTopK results k)) (fp (truncateTopK results k)))
      (recallOf (tp (truncateTopK results k)) (fn (truncateTopK results k))))

/-- Gain `2 ** relevant - 1` of a graded row. -/
def gain (g : ℕ) : ℚ := 2 ^ g - 1

/-- The loop of `normalized_discounted_cumulative_gain` over the
grade-sorted, re-indexed rows: accumulates
`(2 ** relevant - 1) / log2(rank + 1)` into the first component (DCG) and
`(2 ** relevant - 1) / log2((index + 1) + 1)` into the second (IDCG), with
`index` the 0-based position after `reset_index()`. -/
def dcgLoop (lg : ℕ → ℚ) : ℕ → List (ℕ × Row) → ℚ × ℚ
  | _, [] => (0, 0)
  | i, p :: ps =>
    let rest := dcgLoop lg (i + 1) ps
    (gain p.2.relevant / lg (p.1 + 1) + rest.1, gain p.2.relevant / lg (i + 2) + rest.2)

/-- `Evaluation.normalized_discounted_cumulative_gain`; `none` models the
`ZeroDivisionError` of the integer `0 / 0` reached when no relevant row was
retrieved (both accumulators still hold their initial `int` 0). -/
def normalized_discounted_cumulative_gain (lg : ℕ → ℚ) (results : List Row) : Option ℚ :=
  if (calculate_ranks results).length = 0 then none
  else some ((dcgLoop lg 0 (sortByRelDesc (calculate_ranks results))).1 /
    (dcgLoop lg 0 (sortByRelDesc (calculate_ranks results))).2)

/-- `Evaluation.mean_normalized_discounted_cumulative_gain_score`. -/
def mean_normalized_discounted_cumulative_gain_score (lg : ℕ → ℚ)
    (results : List Row) : Option ℚ :=
  (optionSumBy (fun q => normalized_discounted_cumulative_gain lg (groupQ results q))
      (uniqueQIDs results)).bind
    (fun s => if (uniqueQIDs results).length = 0 then none
      else some (s / ((uniqueQIDs results).length : ℚ)))

/-- Tier selection of `mean_reciprocal_rank`: rows with
`relevant >= threshold` if any, else rows with `relevant >= threshold - 1`. -/
def mrrTier (threshold : ℕ) (ranks : List (ℕ × Row)) : List (ℕ × Row) :=
  if 0 < (ranks.filter (fun p => threshold ≤ p.2.relevant)).length then
    ranks.filter (fun p => threshold ≤ p.2.relevant)
  else ranks.filter (fun p => threshold - 1 ≤ p.2.relevant)

/-- Per-query contribution `1 / float(ranks['rank'])` after
`sort_values('rank').head(1)`; `none` models the `TypeError` raised by
`float()` on an empty series when even the fallback tier is empty. -/
def reciprocalBestRank (threshold : ℕ) (results : List Row) (q : ℕ) : Option ℚ :=
  (sortByRankAsc (mrrTier threshold (calculate_ranks (groupQ results q)))).head?.map
    (fun p => 1 / (p.1 : ℚ))

/-- `Evaluation.mean_reciprocal_rank`. -/
def mean_reciprocal_rank (results : List Row) (threshold : ℕ) : Option ℚ :=
  (optionSumBy (reciprocalBestRank threshold results) (uniqueQIDs results)).bind
    (fun s => if (uniqueQIDs results).length = 0 then none
      else some (s / ((uniqueQIDs results).length : ℚ)))

/-- The inner `for feature in features` loop of
`Evaluation.feature_selection`: skip already-added features, evaluate the
harness on `added + [feature]` (abstracted as `ev`), and keep the candidate
in `best` when its performance beats both `current` (the running
`current_performance`) and the best seen this round. -/
def innerLoop {α : Type} [DecidableEq α] (ev : List α → ℚ) (added : List α) (current : ℚ) :
    List α → Option α × ℚ → Option α × ℚ
  | [], best => best
  | f :: fs, best =>
    if f ∈ added then innerLoop ev added current fs best
    else
      let p := ev (added ++ [f])
      if current < p ∧ best.2 < p then innerLoop ev added current fs (some f, p)
      else innerLoop ev added current fs best

/-- The outer `while len(added_columns) < len(features)` loop of
`Evaluation.feature_selection`. Each pass either commits the round's best
feature or breaks; `fuel` bounds the recursion and is chosen large enough
in `feature_selection` that it never runs out before the loop condition or
the break fires. -/
def fsLoop {α : Type} [DecidableEq α] (ev : List α → ℚ) (features : List α) :
    ℕ → List α → List ℚ → ℚ → List α × List ℚ
  | 0, added, perfs, _ => (added, perfs)
  | fuel + 1, added, perfs, current =>
    if added.length < features.length then
      match innerLoop ev added current features (none, 0) with
      | (some f, p) => fsLoop ev features fuel (added ++ [f]) (perfs ++ [p]) p
      | (none, _) => (added, perfs)
    else (added, perfs)

/-- `Evaluation.feature_selection`, abstracted over the harness evaluation
`ev` (the `compute_metrics(...)[1]` nDCG of a candidate feature list):
starts with no columns added, an empty performance list and
`current_performance = -1`. -/
def feature_selection {α : Type} [DecidableEq α] (ev : List α → ℚ) (features : List α) :
    List α × List ℚ :=
  fsLoop ev features (features.length + 1) [] [] (-1)

/-- One dimension of the skopt search space; only its `.name` is consumed
by the optimization glue (`space.name` keys of `best_params_dict`). -/
structure Dim (ν : Type) where
  name : ν

/-- The result of `gp_minimize` that the glue code consumes: the best
parameter vector `x`, positionally parallel to the search space. -/
structure OptOutcome (V : Type) where
  x : List V

/-- `model.set_params(**kvs)` acting on a parameter assignment: later keys
override earlier ones, every other parameter keeps its value. -/
def setParams {ν V : Type} [DecidableEq ν] (base : ν → V) (kvs : List (ν × V)) : ν → V :=
  kvs.foldl (fun f kv => fun n => if n = kv.1 then kv.2 else f n) base

/-- The `use_named_args(search_space)`-decorated trial objective of
`Evaluation.hyperparameter_optimization`: set the dimension-named
hyperparameters (zipped positionally with the trial vector `x`) on the
classifier and return `-1 *` the validation-split MRR, the first component
of `compute_metrics` (abstracted as `cm`, a function of the classifier's
parameter assignment and the data split). Because every trial sets all
dimension names, the classifier's mutable parameter state is overwritten
each call, so the objective is a pure function of `x`. -/
def hyperOptObjective {ν V δ : Type} [DecidableEq ν] (cm : (ν → V) → δ → ℚ × ℚ)
    (base : ν → V) (space : List (Dim ν)) (valData : δ) (x : List V) : ℚ :=
  -1 * (cm (setParams base ((space.map Dim.name).zip x)) valData).1

/-- `Evaluation.hyperparameter_optimization`, abstracted over `gp_minimize`
(an opaque minimizer handed the objective) and `compute_metrics`: build the
best parameter dict by zipping dimension names with the returned vector,
refit with it, evaluate on the test split and return the test MRR
`test_set_performance[0]`. -/
def hyperparameter_optimization {ν V δ : Type} [DecidableEq ν]
    (gpMinimize : (List V → ℚ) → OptOutcome V) (cm : (ν → V) → δ → ℚ × ℚ)
    (base : ν → V) (space : List (Dim ν)) (valData testData : δ) : ℚ :=
  let best := gpMinimize (hyperOptObjective cm base space valData)
  (cm (setParams base ((space.map Dim.name).zip best.x)) testData).1

/-- The end-to-end scenario of the spec: qID 1 holds a grade-3 document at
confidence 0.9 and a grade-0 document at confidence 0.1; qID 2 holds a
grade-2 document at confidence 0.8 and a grade-0 document at confidence
0.4. -/
def scenarioResults : List Row :=
  [⟨9/10, 1, 100, 3⟩, ⟨1/10, 1, 101, 0⟩, ⟨8/10, 2, 102, 2⟩, ⟨4/10, 2, 103, 0⟩]

/-- The contract pandas documents for
`results.sort_values('confidence', ascending=False)` with the default
`kind='quicksort'`: the output is some permutation of the rows that is
sorted by descending confidence; for a non-stable kind nothing further — in
particular no tie order — is guaranteed. -/
def IsSortValuesDesc (results out : List Row) : Prop :=
  out.Perm results ∧ List.Sorted confGE out

/-- Twenty rows sharing confidence 0.5 (qID 1, pID `0..19`, grade 1): a
result set large enough that numpy's introsort leaves its stable
insertion-sort regime, so the source's default-kind sort guarantees no tie
order on it. -/
def c1FailingInput : List Row :=
  (List.range 20).map (fun i => ⟨1/2, 1, i, 1⟩)

end Evaluation
namespace Evaluation

theorem length_rankFrom (n : ℕ) (l : List Row) : (rankFrom n l).length = l.length := by
  induction l generalizing n with
  | nil => rfl
  | cons r rs ih => simp [rankFrom, ih]

theorem mem_rankFrom {p : ℕ × Row} :
    ∀ {n : ℕ} {l : List Row}, p ∈ rankFrom n l →
      n ≤ p.1 ∧ p.1 < n + l.length ∧ l.get? (p.1 - n) = some p.2 := by
  intro n l
  induction l generalizing n with
  | nil => intro h; cases h
  | cons r rs ih =>
    intro h
    rcases List.mem_cons.mp h with h | h
    · subst h
      simp [rankFrom]
    · obtain ⟨h1, h2, h3⟩ := ih h
      refine ⟨le_trans (Nat.le_succ n) h1, by simpa [Nat.add_comm, Nat.add_left_comm] using h2, ?_⟩
      have hd : p.1 - n = (p.1 - (n + 1)) + 1 := by omega
      rw [hd]
      simpa using h3

theorem pairwise_rankFrom (n : ℕ) (l : List Row) :
    (rankFrom n l).Pairwise (fun p q => p.1 < q.1) := by
  induction l generalizing n with
  | nil => exact List.Pairwise.nil
  | cons r rs ih =>
    refine List.pairwise_cons.mpr ⟨?_, ih (n + 1)⟩
    intro q hq
    exact lt_of_lt_of_le (Nat.lt_succ_self n) (mem_rankFrom hq).1

theorem map_snd_filter_rankFrom (n : ℕ) (l : List Row) :
    (((rankFrom n l).filter (fun p => 1 ≤ p.2.relevant)).map Prod.snd) =
      l.filter (fun r => 1 ≤ r.relevant) := by
  induction l generalizing n with
  | nil => rfl
  | cons r rs ih =>
    by_cases h : 1 ≤ r.relevant <;> simp [rankFrom, List.filter, h, ih]

theorem map_snd_calculate_ranks (results : List Row) :
    (calculate_ranks results).map Prod.snd =
      (sortByConfDesc results).filter (fun r => 1 ≤ r.relevant) :=
  map_snd_filter_rankFrom 1 (sortByConfDesc results)

theorem sorted_confGE_of_const {c : ℚ} :
    ∀ l : List Row, (∀ r ∈ l, r.confidence = c) → List.Sorted confGE l := by
  intro l
  induction l with
  | nil => intro _; exact List.sorted_nil
  | cons r rs ih =>
    intro h
    rw [List.sorted_cons]
    refine ⟨fun b hb => ?_, ih (fun b hb => h b (List.mem_cons_of_mem _ hb))⟩
    unfold confGE
    rw [h r (List.mem_cons_self _ _), h b (List.mem_cons_of_mem _ hb)]

theorem map_snd_rankFrom : ∀ (n : ℕ) (l : List Row), (rankFrom n l).map Prod.snd = l := by
  intro n l
  induction l generalizing n with
  | nil => rfl
  | cons r rs ih => simp [rankFrom, ih]

/-- C1. The claim asserts the confidence sort inside `calculate_ranks` is
stable on every result set. The source sorts with
`sort_values('confidence', ascending=False)` and the default
`kind='quicksort'` (numpy introsort), which pandas documents as
non-stable: the code's contract (`IsSortValuesDesc`) only promises some
descending-sorted permutation of the rows. At the failing input of twenty
equal-confidence rows, both the original order and its reversal satisfy
that contract yet assign different ranks to the same rows, so the claimed
tie stability — and with it rank determinism under ties — is not a
consequence of the code; the stable `sortByConfDesc` model used by the
remaining theorems is just one admissible refinement of the contract. -/
theorem quicksort_contract_not_stable :
    IsSortValuesDesc c1FailingInput c1FailingInput ∧
      IsSortValuesDesc c1FailingInput c1FailingInput.reverse ∧
      c1FailingInput ≠ c1FailingInput.reverse ∧
      rankFrom 1 c1FailingInput ≠ rankFrom 1 c1FailingInput.reverse ∧
      IsSortValuesDesc c1FailingInput (sortByConfDesc c1FailingInput) := by
  have hconst : ∀ r ∈ c1FailingInput, r.confidence = 1 / 2 := by
    intro r hr
    obtain ⟨i, _, rfl⟩ := List.mem_map.mp hr
    rfl
  have hconstrev : ∀ r ∈ c1FailingInput.reverse, r.confidence = 1 / 2 :=
    fun r hr => hconst r (List.mem_reverse.mp hr)
  have hpid : c1FailingInput.map Row.pID = List.range 20 := by
    unfold c1FailingInput
    rw [List.map_map]
    exact List.map_id _
  have hneq : c1FailingInput ≠ c1FailingInput.reverse := by
    intro h
    have h2 := congrArg (List.map Row.pID) h
    rw [hpid, List.map_reverse, hpid] at h2
    exact absurd h2 (by decide)
  have hrank : rankFrom 1 c1FailingInput ≠ rankFrom 1 c1FailingInput.reverse := by
    intro h
    have h2 := congrArg (List.map Prod.snd) h
    rw [map_snd_rankFrom, map_snd_rankFrom] at h2
    exact hneq h2
  exact ⟨⟨List.Perm.refl _, sorted_confGE_of_const _ hconst⟩,
    ⟨List.reverse_perm _, sorted_confGE_of_const _ hconstrev⟩, hneq, hrank,
    ⟨List.perm_insertionSort confGE _, List.sorted_insertionSort confGE _⟩⟩

/-- C2. `calculate_ranks` returns exactly the rows with `relevant >= 1`, in
the order of the full confidence-descending sort; each carries a rank equal
to its 1-based position in that full sorted set, so the retained ranks are
strictly increasing and lie in `1..N`; the retained rows are re-indexed by
list position `1..R` in rank order (`R` may be `0`). -/
theorem calculate_ranks_spec (results : List Row) :
    ((calculate_ranks results).map Prod.snd =
        (sortByConfDesc results).filter (fun r => 1 ≤ r.relevant)) ∧
      ((calculate_ranks results).map Prod.fst).Pairwise (· < ·) ∧
      (∀ p ∈ calculate_ranks results,
        1 ≤ p.1 ∧ p.1 ≤ results.length ∧ 1 ≤ p.2.relevant ∧
          (sortByConfDesc results).get? (p.1 - 1) = some p.2) := by
  refine ⟨map_snd_calculate_ranks results, ?_, ?_⟩
  · have hsub : List.Sublist (calculate_ranks results) (rankFrom 1 (sortByConfDesc results)) :=
      List.filter_sublist _
    exact List.pairwise_map.mpr ((pairwise_rankFrom 1 (sortByConfDesc results)).sublist hsub)
  · intro p hp
    have hmem := List.mem_of_mem_filter hp
    have hrel : 1 ≤ p.2.relevant := by
      have := List.of_mem_filter hp
      simpa using this
    obtain ⟨h1, h2, h3⟩ := mem_rankFrom hmem
    refine ⟨h1, ?_, hrel, h3⟩
    have hlen : (sortByConfDesc results).length = results.length :=
      List.length_insertionSort confGE results
    omega

theorem apSum_eq_sum (d : ℕ × Row) :
    ∀ (l : List (ℕ × Row)) (i : ℕ),
      apSum i l = ∑ j ∈ Finset.range l.length, ((i + j : ℕ) : ℚ) / ((l.getD j d).1 : ℚ) := by
  intro l
  induction l with
  | nil => intro i; simp [apSum]
  | cons p ps ih =>
    intro i
    rw [List.length_cons, Finset.sum_range_succ', apSum, ih (i + 1)]
    simp only [List.getD_cons_succ, List.getD_cons_zero, Nat.add_zero]
    rw [add_comm]
    congr 1
    refine Finset.sum_congr rfl (fun j _ => ?_)
    congr 2
    omega

theorem optionSumBy_foldl_some (f : ℕ → Option ℚ) :
    ∀ (l : List ℕ) (s : ℚ), (∀ q ∈ l, (f q).isSome) →
      l.foldl (fun acc q => acc.bind (fun t => (f q).map (fun v => t + v))) (some s) =
        some (s + (l.map (fun q => (f q).getD 0)).sum) := by
  intro l
  induction l with
  | nil => intro s _; simp
  | cons q l ih =>
    intro s h
    obtain ⟨v, hv⟩ := Option.isSome_iff_exists.mp (h q (List.mem_cons_self q l))
    have step : (some s).bind (fun t => (f q).map (fun v => t + v)) = some (s + v) := by
      simp [hv]
    rw [List.foldl_cons, step, ih (s + v) (fun x hx => h x (List.mem_cons_of_mem q hx))]
    simp [hv, add_assoc]

theorem optionSumBy_some (f : ℕ → Option ℚ) (l : List ℕ) (h : ∀ q ∈ l, (f q).isSome) :
    optionSumBy f l = some ((l.map (fun q => (f q).getD 0)).sum) := by
  simpa [optionSumBy] using optionSumBy_foldl_some f l 0 h

theorem optionSumBy_foldl_start_none (f : ℕ → Option ℚ) :
    ∀ l : List ℕ,
      l.foldl (fun acc q => acc.bind (fun t => (f q).map (fun v => t + v))) none = none := by
  intro l
  induction l with
  | nil => rfl
  | cons q l ih => simpa using ih

theorem optionSumBy_foldl_none (f : ℕ → Option ℚ) {q : ℕ} (hn : f q = none) :
    ∀ (l : List ℕ) (acc : Option ℚ), q ∈ l →
      l.foldl (fun acc q => acc.bind (fun t => (f q).map (fun v => t + v))) acc = none := by
  intro l
  induction l with
  | nil => intro acc h; cases h
  | cons a l ih =>
    intro acc h
    rcases List.mem_cons.mp h with h | h
    · subst h
      have hstep : acc.bind (fun t => (f q).map (fun v => t + v)) = none := by
        cases acc <;> simp [hn]
      rw [List.foldl_cons, hstep, optionSumBy_foldl_start_none]
    · exact ih _ h

theorem optionSumBy_none (f : ℕ → Option ℚ) (l : List ℕ) (q : ℕ) (hq : q ∈ l)
    (hn : f q = none) : optionSumBy f l = none :=
  optionSumBy_foldl_none f hn l (some 0) hq

/-- C2 witness at a concrete three-row result set. -/
theorem calculate_ranks_spec_witness :
    ((calculate_ranks [⟨9/10, 1, 10, 3⟩, ⟨1/10, 1, 11, 0⟩, ⟨5/10, 1, 12, 2⟩]).map
        Prod.snd =
      (sortByConfDesc [⟨9/10, 1, 10, 3⟩, ⟨1/10, 1, 11, 0⟩, ⟨5/10, 1, 12, 2⟩]).filter
        (fun r => 1 ≤ r.relevant)) ∧
      ((calculate_ranks [⟨9/10, 1, 10, 3⟩, ⟨1/10, 1, 11, 0⟩, ⟨5/10, 1, 12, 2⟩]).map
        Prod.fst).Pairwise (· < ·) :=
  ⟨(calculate_ranks_spec _).1, (calculate_ranks_spec _).2.1⟩

/-- C3. When at least one relevant row is retained (`R >= 1`),
`average_precision_score` equals the sum over the retained rows of
(1-based re-indexed position) / (original rank), divided by `R`; and
`mean_average_precision_score` is the arithmetic mean of
`average_precision_score` over the groups of rows sharing each distinct
qID. -/
theorem average_precision_spec :
    (∀ results : List Row, calculate_ranks results ≠ [] →
      average_precision_score results =
        some ((∑ j ∈ Finset.range (calculate_ranks results).length,
            ((j + 1 : ℕ) : ℚ) /
              (((calculate_ranks results).getD j (0, ⟨0, 0, 0, 0⟩)).1 : ℚ)) /
          ((calculate_ranks results).length : ℚ))) ∧
    (∀ results : List Row,
      (∀ q ∈ uniqueQIDs results, (average_precision_score (groupQ results q)).isSome) →
      uniqueQIDs results ≠ [] →
      mean_average_precision_score results =
        some ((((uniqueQIDs results).map
            (fun q => (average_precision_score (groupQ results q)).getD 0)).sum) /
          ((uniqueQIDs results).length : ℚ))) := by
  constructor
  · intro results h
    have hlen : (calculate_ranks results).length ≠ 0 := by
      simpa [List.length_eq_zero] using h
    unfold average_precision_score
    rw [if_neg hlen, apSum_eq_sum (0, ⟨0, 0, 0, 0⟩) (calculate_ranks results) 1]
    congr 2
    refine Finset.sum_congr rfl (fun j _ => ?_)
    congr 2
    omega
  · intro results hsome hne
    have hlen : (uniqueQIDs results).length ≠ 0 := by
      simpa [List.length_eq_zero] using hne
    unfold mean_average_precision_score
    rw [optionSumBy_some _ _ hsome]
    simp [hlen]

/-- C3 witness: a single query with two relevant rows at ranks 1 and 2;
both parts of the statement instantiated there. -/
theorem average_precision_spec_witness :
    (average_precision_score [⟨9/10, 1, 0, 3⟩, ⟨1/10, 1, 1, 1⟩] =
      some ((∑ j ∈ Finset.range
          (calculate_ranks [⟨9/10, 1, 0, 3⟩, ⟨1/10, 1, 1, 1⟩]).length,
            ((j + 1 : ℕ) : ℚ) /
              (((calculate_ranks [⟨9/10, 1, 0, 3⟩, ⟨1/10, 1, 1, 1⟩]).getD j
                (0, ⟨0, 0, 0, 0⟩)).1 : ℚ)) /
          ((calculate_ranks [⟨9/10, 1, 0, 3⟩, ⟨1/10, 1, 1, 1⟩]).length : ℚ))) ∧
    (mean_average_precision_score [⟨9/10, 1, 0, 3⟩, ⟨1/10, 1, 1, 1⟩] =
      some ((((uniqueQIDs [⟨9/10, 1, 0, 3⟩, ⟨1/10, 1, 1, 1⟩]).map
          (fun q => (average_precision_score
            (groupQ [⟨9/10, 1, 0, 3⟩, ⟨1/10, 1, 1, 1⟩] q)).getD 0)).sum) /
        ((uniqueQIDs [⟨9/10, 1, 0, 3⟩, ⟨1/10, 1, 1, 1⟩]).length : ℚ))) := by
  have hranks : calculate_ranks [⟨9/10, 1, 0, 3⟩, ⟨1/10, 1, 1, 1⟩] =
      [(1, ⟨9/10, 1, 0, 3⟩), (2, ⟨1/10, 1, 1, 1⟩)] := by
    norm_num [calculate_ranks, sortByConfDesc, rankFrom, confGE,
      List.insertionSort, List.orderedInsert]
  constructor
  · exact average_precision_spec.1 _ (by rw [hranks]; simp)
  · refine average_precision_spec.2 _ ?_ ?_
    · intro q hq
      have hq1 : q = 1 := by
        simpa [uniqueQIDs, pdUniqueAux] using hq
      subst hq1
      have hgrp : groupQ [(⟨9/10, 1, 0, 3⟩ : Row), ⟨1/10, 1, 1, 1⟩] 1 =
          [⟨9/10, 1, 0, 3⟩, ⟨1/10, 1, 1, 1⟩] := by
        norm_num [groupQ]
      rw [hgrp]
      unfold average_precision_score
      rw [hranks]
      simp
    · simp [uniqueQIDs, pdUniqueAux]

theorem head_sortByRankAsc_min (l : List (ℕ × Row)) (h : l ≠ []) :
    ∃ p, (sortByRankAsc l).head? = some p ∧ (l.map Prod.fst).min? = some p.1 := by
  have hperm : (sortByRankAsc l).Perm l := List.perm_insertionSort rankLE l
  have hsorted : List.Sorted rankLE (sortByRankAsc l) :=
    List.sorted_insertionSort rankLE l
  rcases hs : sortByRankAsc l with _ | ⟨p, rest⟩
  · have h0 : l.length = 0 := by
      have hl := List.length_insertionSort rankLE l
      rw [show List.insertionSort rankLE l = sortByRankAsc l from rfl, hs] at hl
      simpa using hl.symm
    exact absurd (List.length_eq_zero.mp h0) h
  · refine ⟨p, rfl, ?_⟩
    rw [hs] at hperm hsorted
    refine List.min?_eq_some_iff'.mpr ⟨?_, ?_⟩
    · exact List.mem_map_of_mem Prod.fst (hperm.mem_iff.mp (List.mem_cons_self p rest))
    · intro b hb
      obtain ⟨x, hx, hxb⟩ := List.mem_map.mp hb
      have hx2 : x ∈ p :: rest := hperm.mem_iff.mpr hx
      rcases List.mem_cons.mp hx2 with h1 | h1
      · rw [← h1]
        exact le_of_eq hxb
      · have h2 : p.1 ≤ x.1 := List.rel_of_sorted_cons hsorted x h1
        omega

/-- C4. `mean_reciprocal_rank` with the default threshold 3 selects, per
distinct qID, the tier `relevant >= 3` of that query's `calculate_ranks`
when non-empty and otherwise the tier `relevant >= 2`, contributes the
reciprocal of the minimum rank of the selected tier, and divides the sum of
contributions by the number of distinct qIDs; a single query whose only row
has `relevant = 3` (hence rank 1) yields 1. -/
theorem mean_reciprocal_rank_spec :
    (∀ ranks : List (ℕ × Row),
      ((ranks.filter (fun p => 3 ≤ p.2.relevant)) ≠ [] →
        mrrTier 3 ranks = ranks.filter (fun p => 3 ≤ p.2.relevant)) ∧
      ((ranks.filter (fun p => 3 ≤ p.2.relevant)) = [] →
        mrrTier 3 ranks = ranks.filter (fun p => 2 ≤ p.2.relevant))) ∧
    (∀ results q, mrrTier 3 (calculate_ranks (groupQ results q)) ≠ [] →
      ∃ m : ℕ, reciprocalBestRank 3 results q = some (1 / (m : ℚ)) ∧
        ((mrrTier 3 (calculate_ranks (groupQ results q))).map Prod.fst).min? = some m) ∧
    (∀ results : List Row,
      (∀ q ∈ uniqueQIDs results, (reciprocalBestRank 3 results q).isSome) →
      uniqueQIDs results ≠ [] →
      mean_reciprocal_rank results 3 =
        some ((((uniqueQIDs results).map
            (fun q => (reciprocalBestRank 3 results q).getD 0)).sum) /
          ((uniqueQIDs results).length : ℚ))) ∧
    (∀ r : Row, r.relevant = 3 → mean_reciprocal_rank [r] 3 = some 1) := by
  refine ⟨?_, ?_, ?_, ?_⟩
  · intro ranks
    constructor
    · intro h
      have : 0 < (ranks.filter (fun p => 3 ≤ p.2.relevant)).length :=
        List.length_pos.mpr h
      simp [mrrTier, this]
    · intro h
      have h0 : (ranks.filter (fun p => decide (3 ≤ p.2.relevant))).length = 0 := by
        simp [h]
      simp only [mrrTier, h0]
      norm_num
  · intro results q h
    obtain ⟨p, hp, hmin⟩ := head_sortByRankAsc_min _ h
    exact ⟨p.1, by simp [reciprocalBestRank, hp], hmin⟩
  · intro results hsome hne
    have hlen : (uniqueQIDs results).length ≠ 0 := by
      simpa [List.length_eq_zero] using hne
    unfold mean_reciprocal_rank
    rw [optionSumBy_some _ _ hsome]
    simp [hlen]
  · intro r hr
    have hq : uniqueQIDs [r] = [r.qID] := by simp [uniqueQIDs, pdUniqueAux]
    have hgrp : groupQ [r] r.qID = [r] := by simp [groupQ]
    have hranks : calculate_ranks [r] = [(1, r)] := by
      simp [calculate_ranks, sortByConfDesc, rankFrom, List.insertionSort,
        List.orderedInsert, hr]
    have htier : mrrTier 3 [(1, r)] = [(1, r)] := by
      simp [mrrTier, hr]
    have hrbr : reciprocalBestRank 3 [r] r.qID = some 1 := by
      simp [reciprocalBestRank, hgrp, hranks, htier, sortByRankAsc,
        List.insertionSort, List.orderedInsert]
    unfold mean_reciprocal_rank
    rw [hq]
    simp [optionSumBy, hrbr]

/-- C4 witness: the single-query instance with one `relevant = 3` row. -/
theorem mean_reciprocal_rank_spec_witness :
    mean_reciprocal_rank [⟨9/10, 1, 0, 3⟩] 3 = some 1 :=
  mean_reciprocal_rank_spec.2.2.2 ⟨9/10, 1, 0, 3⟩ rfl

theorem dcgLoop_fst (lg : ℕ → ℚ) :
    ∀ (l : List (ℕ × Row)) (i : ℕ),
      (dcgLoop lg i l).1 = (l.map (fun p => gain p.2.relevant / lg (p.1 + 1))).sum := by
  intro l
  induction l with
  | nil => intro i; simp [dcgLoop]
  | cons p ps ih => intro i; simp [dcgLoop, ih (i + 1)]

theorem dcgLoop_snd (lg : ℕ → ℚ) (d : ℕ × Row) :
    ∀ (l : List (ℕ × Row)) (i : ℕ),
      (dcgLoop lg i l).2 =
        ∑ j ∈ Finset.range l.length,
          gain ((l.getD j d).2.relevant) / lg (i + j + 2) := by
  intro l
  induction l with
  | nil => intro i; simp [dcgLoop]
  | cons p ps ih =>
    intro i
    rw [List.length_cons, Finset.sum_range_succ', dcgLoop]
    simp only [List.getD_cons_succ, List.getD_cons_zero, Nat.add_zero]
    rw [add_comm, ih (i + 1)]
    congr 1
    refine Finset.sum_congr rfl (fun j _ => ?_)
    congr 2
    omega

/-- C5. `normalized_discounted_cumulative_gain` returns DCG/IDCG where, over
the relevant-only rows of `calculate_ranks`, DCG sums
`(2^grade - 1) / log2(rank + 1)` at each row's actual retrieved rank and
IDCG sums `(2^grade - 1) / log2(position + 1)` with `position` the 1-based
index after re-sorting those rows by grade descending;
`mean_normalized_discounted_cumulative_gain_score` averages the per-qID
values; and on the two-query scenario where each query's single relevant
document has the highest confidence, the mean nDCG is 1 (for any discount
with `log2 2 ≠ 0`). -/
theorem ndcg_spec :
    (∀ (lg : ℕ → ℚ) (results : List Row), calculate_ranks results ≠ [] →
      normalized_discounted_cumulative_gain lg results =
        some ((((calculate_ranks results).map
            (fun p => gain p.2.relevant / lg (p.1 + 1))).sum) /
          (∑ j ∈ Finset.range (calculate_ranks results).length,
            gain (((sortByRelDesc (calculate_ranks results)).getD j
              (0, ⟨0, 0, 0, 0⟩)).2.relevant) / lg (j + 2)))) ∧
    (∀ (lg : ℕ → ℚ) (results : List Row),
      (∀ q ∈ uniqueQIDs results,
        (normalized_discounted_cumulative_gain lg (groupQ results q)).isSome) →
      uniqueQIDs results ≠ [] →
      mean_normalized_discounted_cumulative_gain_score lg results =
        some ((((uniqueQIDs results).map
            (fun q =>
              (normalized_discounted_cumulative_gain lg (groupQ results q)).getD 0)).sum) /
          ((uniqueQIDs results).length : ℚ))) ∧
    (∀ lg : ℕ → ℚ, lg 2 ≠ 0 →
      mean_normalized_discounted_cumulative_gain_score lg scenarioResults = some 1) := by
  refine ⟨?_, ?_, ?_⟩
  · intro lg results h
    have hlen : (calculate_ranks results).length ≠ 0 := by
      simpa [List.length_eq_zero] using h
    unfold normalized_discounted_cumulative_gain
    rw [if_neg hlen, dcgLoop_fst lg _ 0, dcgLoop_snd lg (0, ⟨0, 0, 0, 0⟩) _ 0]
    have hperm : (sortByRelDesc (calculate_ranks results)).Perm (calculate_ranks results) :=
      List.perm_insertionSort relGE _
    have hsum : ((sortByRelDesc (calculate_ranks results)).map
        (fun p => gain p.2.relevant / lg (p.1 + 1))).sum =
          ((calculate_ranks results).map
            (fun p => gain p.2.relevant / lg (p.1 + 1))).sum :=
      (hperm.map _).sum_eq
    have hlen2 : (sortByRelDesc (calculate_ranks results)).length =
        (calculate_ranks results).length :=
      List.length_insertionSort relGE _
    rw [hsum, hlen2]
    congr 2
    refine Finset.sum_congr rfl (fun j _ => ?_)
    congr 2
    omega
  · intro lg results hsome hne
    have hlen : (uniqueQIDs results).length ≠ 0 := by
      simpa [List.length_eq_zero] using hne
    unfold mean_normalized_discounted_cumulative_gain_score
    rw [optionSumBy_some _ _ hsome]
    simp [hlen]
  · intro lg h2
    norm_num [mean_normalized_discounted_cumulative_gain_score, scenarioResults,
      uniqueQIDs, pdUniqueAux, optionSumBy, normalized_discounted_cumulative_gain,
      dcgLoop, gain, sortByRelDesc, relGE, calculate_ranks, groupQ, sortByConfDesc,
      rankFrom, confGE, List.insertionSort, List.orderedInsert, Option.bind,
      div_self, h2]

/-- C5 witness: the scenario instance at the concrete discount
`lg n = n`. -/
theorem ndcg_spec_witness :
    mean_normalized_discounted_cumulative_gain_score (fun n => (n : ℚ))
      scenarioResults = some 1 :=
  ndcg_spec.2.2 (fun n => (n : ℚ)) (by norm_num)

theorem setParams_not_mem {ν V : Type} [DecidableEq ν] :
    ∀ (kvs : List (ν × V)) (base : ν → V) (m : ν), (∀ kv ∈ kvs, kv.1 ≠ m) →
      setParams base kvs m = base m := by
  intro kvs
  induction kvs with
  | nil => intro base m _; rfl
  | cons kv rest ih =>
    intro base m h
    have hstep : setParams base (kv :: rest) m =
        setParams (fun n => if n = kv.1 then kv.2 else base n) rest m := rfl
    rw [hstep, ih _ m (fun kv2 h2 => h kv2 (List.mem_cons_of_mem _ h2))]
    have hne : ¬ (m = kv.1) := fun he => h kv (List.mem_cons_self _ _) he.symm
    simp [hne]

theorem setParams_zip_get {ν V : Type} [DecidableEq ν] :
    ∀ (names : List ν) (x : List V) (base : ν → V) (i : ℕ)
      (hn : names.Nodup) (hi : i < names.length) (hx : i < x.length),
      setParams base (names.zip x) (names.get ⟨i, hi⟩) = x.get ⟨i, hx⟩ := by
  intro names
  induction names with
  | nil => intro x base i _ hi _; exact absurd hi (Nat.not_lt_zero i)
  | cons nm names ih =>
    intro x base i hn hi hx
    rcases x with _ | ⟨v, xs⟩
    · exact absurd hx (Nat.not_lt_zero i)
    · rcases i with _ | j
      · have hnm : nm ∉ names := (List.nodup_cons.mp hn).1
        show setParams (fun n => if n = nm then v else base n) (names.zip xs) nm = v
        rw [setParams_not_mem _ _ _ ?hsafe]
        · simp
        case hsafe =>
          intro kv hkv he
          have hfst : kv.1 ∈ names := by
            rcases kv with ⟨kn, kvv⟩
            exact (List.of_mem_zip hkv).1
          exact hnm (he ▸ hfst)
      · exact ih xs _ j (List.nodup_cons.mp hn).2 (Nat.lt_of_succ_lt_succ hi)
          (Nat.lt_of_succ_lt_succ hx)

/-- C9. The trial objective of `hyperparameter_optimization` sets the
dimension-named hyperparameters (zipped positionally with the trial vector)
and returns the negated validation MRR; the best vector is mapped back to
named values purely by positional correspondence with the search-space
dimension order (proved for any duplicate-free dimension names); the
classifier is refit with the best configuration and the test-split MRR (the
first component of the `compute_metrics` pair) is returned. -/
theorem hyperparameter_optimization_spec {ν V δ : Type} [DecidableEq ν]
    (gpMinimize : (List V → ℚ) → OptOutcome V) (cm : (ν → V) → δ → ℚ × ℚ)
    (base : ν → V) (space : List (Dim ν)) (valData testData : δ) :
    (∀ x : List V, hyperOptObjective cm base space valData x =
      -1 * (cm (setParams base ((space.map Dim.name).zip x)) valData).1) ∧
    (hyperparameter_optimization gpMinimize cm base space valData testData =
      (cm (setParams base ((space.map Dim.name).zip
        (gpMinimize (hyperOptObjective cm base space valData)).x)) testData).1) ∧
    (∀ (x : List V) (i : ℕ) (hn : (space.map Dim.name).Nodup)
      (hi : i < (space.map Dim.name).length) (hx : i < x.length),
      setParams base ((space.map Dim.name).zip x) ((space.map Dim.name).get ⟨i, hi⟩) =
        x.get ⟨i, hx⟩) :=
  ⟨fun _ => rfl, rfl, fun x i hn hi hx => setParams_zip_get _ x base i hn hi hx⟩

/-- C9 witness: a two-dimensional search space over `ℕ`-named dimensions
with rational values; the positional mapping sends dimension 0's name to
the vector's first entry. -/
theorem hyperparameter_optimization_spec_witness :
    setParams (fun _ => (0 : ℚ))
        ((([⟨10⟩, ⟨20⟩] : List (Dim ℕ)).map Dim.name).zip [5, 7])
        ((([⟨10⟩, ⟨20⟩] : List (Dim ℕ)).map Dim.name).get ⟨0, by norm_num⟩) = 5 :=
  (hyperparameter_optimization_spec (fun _ => ⟨[5, 7]⟩) (fun _ _ => (0, 0))
    (fun _ => (0 : ℚ)) [⟨10⟩, ⟨20⟩] 0 0).2.2 [5, 7] 0 (by norm_num) (by norm_num)
    (by norm_num)

/-- C10. With the default threshold 3, a result set containing a query all
of whose rows have `relevant < 2` (so even the fallback tier
`relevant >= threshold - 1` is empty) makes `mean_reciprocal_rank` raise
(`float()` of an empty series) instead of returning a value. -/
theorem mrr_missing_tier_fault (results : List Row) (q : ℕ) (hq : q ∈ uniqueQIDs results)
    (hrel : ∀ r ∈ groupQ results q, r.relevant < 2) :
    mean_reciprocal_rank results 3 = none := by
  have hmem : ∀ p ∈ calculate_ranks (groupQ results q), p.2.relevant < 2 := by
    intro p hp
    have h1 : p ∈ rankFrom 1 (sortByConfDesc (groupQ results q)) :=
      List.mem_of_mem_filter hp
    have h2 : p.2 ∈ sortByConfDesc (groupQ results q) :=
      List.get?_mem (mem_rankFrom h1).2.2
    have h3 : p.2 ∈ groupQ results q :=
      (List.perm_insertionSort confGE (groupQ results q)).subset h2
    exact hrel p.2 h3
  have htier : mrrTier 3 (calculate_ranks (groupQ results q)) = [] := by
    have hf3 : (calculate_ranks (groupQ results q)).filter
        (fun p => 3 ≤ p.2.relevant) = [] := by
      rw [List.filter_eq_nil_iff]
      intro p hp
      have := hmem p hp
      simp
      omega
    have hf2 : (calculate_ranks (groupQ results q)).filter
        (fun p => 2 ≤ p.2.relevant) = [] := by
      rw [List.filter_eq_nil_iff]
      intro p hp
      have := hmem p hp
      simp
      omega
    unfold mrrTier
    rw [hf3]
    simp only [List.length_nil, lt_irrefl, if_false]
    exact hf2
  have hrbr : reciprocalBestRank 3 results q = none := by
    simp [reciprocalBestRank, htier, sortByRankAsc, List.insertionSort]
  unfold mean_reciprocal_rank
  rw [optionSumBy_none _ _ q hq hrbr]
  rfl

/-- C10 witness: a single query whose only row has grade 1. -/
theorem mrr_missing_tier_fault_witness :
    mean_reciprocal_rank [⟨1/2, 7, 0, 1⟩] 3 = none :=
  mrr_missing_tier_fault [⟨1/2, 7, 0, 1⟩] 7
    (by norm_num [uniqueQIDs, pdUniqueAux])
    (by norm_num [groupQ])

theorem topKPerGroup_sublist (k : ℕ) :
    ∀ (l : List Row) (seen : ℕ → ℕ), List.Sublist (topKPerGroup k l seen) l := by
  intro l
  induction l with
  | nil => intro seen; simp [topKPerGroup]
  | cons r rs ih =>
    intro seen
    unfold topKPerGroup
    by_cases h : seen r.qID < k
    · simp only [h, if_true]
      exact List.Sublist.cons₂ r (ih _)
    · simp only [h, if_false]
      exact List.Sublist.cons r (ih _)

theorem topKPerGroup_count (k : ℕ) (q : ℕ) :
    ∀ (l : List Row) (seen : ℕ → ℕ),
      ((topKPerGroup k l seen).filter (fun r => r.qID = q)).length ≤ k - seen q := by
  intro l
  induction l with
  | nil => intro seen; simp [topKPerGroup]
  | cons r rs ih =>
    intro seen
    unfold topKPerGroup
    by_cases h : seen r.qID < k
    · simp only [h, if_true]
      by_cases hq : r.qID = q
      · subst hq
        rw [List.filter_cons]
        have hrec := ih (fun x => if x = r.qID then seen x + 1 else seen x)
        rw [if_pos rfl] at hrec
        simp only [decide_True, eq_self_iff_true, if_true, List.length_cons]
        omega
      · rw [List.filter_cons]
        have hq2 : ¬ (q = r.qID) := fun h2 => hq h2.symm
        have hrec := ih (fun x => if x = r.qID then seen x + 1 else seen x)
        rw [if_neg hq2] at hrec
        simp only [hq, decide_False, Bool.false_eq_true, if_false]
        omega
    · simp only [h, if_false]
      exact ih seen

theorem tp_cons (r : Row) (l : List Row) :
    tp (r :: l) = (if predictedPositive r ∧ 1 ≤ r.relevant then 1 else 0) + tp l := by
  unfold tp
  rw [List.filter_cons]
  by_cases h1 : predictedPositive r <;> by_cases h2 : 1 ≤ r.relevant <;> simp [h1, h2, Nat.add_comm]

theorem fp_cons (r : Row) (l : List Row) :
    fp (r :: l) = (if predictedPositive r ∧ r.relevant = 0 then 1 else 0) + fp l := by
  unfold fp
  rw [List.filter_cons]
  by_cases h1 : predictedPositive r <;> by_cases h2 : r.relevant = 0 <;> simp [h1, h2, Nat.add_comm]

theorem tn_cons (r : Row) (l : List Row) :
    tn (r :: l) = (if ¬ predictedPositive r ∧ r.relevant = 0 then 1 else 0) + tn l := by
  unfold tn
  rw [List.filter_cons]
  by_cases h1 : predictedPositive r <;> by_cases h2 : r.relevant = 0 <;> simp [h1, h2, Nat.add_comm]

theorem fn_cons (r : Row) (l : List Row) :
    fn (r :: l) = (if ¬ predictedPositive r ∧ 1 ≤ r.relevant then 1 else 0) + fn l := by
  unfold fn
  rw [List.filter_cons]
  by_cases h1 : predictedPositive r <;> by_cases h2 : 1 ≤ r.relevant <;> simp [h1, h2, Nat.add_comm]

theorem confusion_partition : ∀ l : List Row, tp l + fp l + tn l + fn l = l.length := by
  intro l
  induction l with
  | nil => rfl
  | cons r rs ih =>
    rw [tp_cons, fp_cons, tn_cons, fn_cons, List.length_cons]
    by_cases hp : predictedPositive r <;> by_cases hr : r.relevant = 0 <;>
      simp only [hp, hr, Nat.one_le_iff_ne_zero, ne_eq, not_true, not_false_iff,
        true_and, false_and, and_true, and_false, if_true, if_false, not_not,
        true_iff, iff_true, ite_true, ite_false] <;>
      omega

theorem accuracyOf_bounds {t f n m : ℕ} (h : t + f + n + m ≠ 0) :
    0 ≤ accuracyOf t f n m ∧ accuracyOf t f n m ≤ 1 := by
  have hpos : (0 : ℚ) < ((t + f + n + m : ℕ) : ℚ) := by
    exact_mod_cast Nat.pos_of_ne_zero h
  unfold accuracyOf
  constructor
  · positivity
  · rw [div_le_one hpos]
    exact_mod_cast (by omega : t + n ≤ t + f + n + m)

theorem precisionOf_bounds {t f : ℕ} {x : ℚ} (h : x ∈ precisionOf t f) :
    0 ≤ x ∧ x ≤ 1 := by
  unfold precisionOf at h
  split at h
  · cases h
  · rename_i htf
    have hval : ((t : ℚ) / ((t + f : ℕ) : ℚ)) = x := by
      simpa using h
    have hpos : (0 : ℚ) < ((t + f : ℕ) : ℚ) := by
      exact_mod_cast Nat.pos_of_ne_zero htf
    subst hval
    constructor
    · positivity
    · rw [div_le_one hpos]
      exact_mod_cast (by omega : t ≤ t + f)

theorem recallOf_bounds {t m : ℕ} {x : ℚ} (h : x ∈ recallOf t m) :
    0 ≤ x ∧ x ≤ 1 := by
  unfold recallOf at h
  split at h
  · cases h
  · rename_i htm
    have hval : ((t : ℚ) / ((t + m : ℕ) : ℚ)) = x := by
      simpa using h
    have hpos : (0 : ℚ) < ((t + m : ℕ) : ℚ) := by
      exact_mod_cast Nat.pos_of_ne_zero htm
    subst hval
    constructor
    · positivity
    · rw [div_le_one hpos]
      exact_mod_cast (by omega : t ≤ t + m)

theorem fscoreOf_bounds {p r : Option ℚ}
    (hp : ∀ x ∈ p, 0 ≤ x ∧ x ≤ 1) (hr : ∀ x ∈ r, 0 ≤ x ∧ x ≤ 1) :
    ∀ x ∈ fscoreOf p r, 0 ≤ x ∧ x ≤ 1 := by
  intro x hx
  rcases p with _ | pv
  · cases hx
  · rcases r with _ | rv
    · cases hx
    · have heq : fscoreOf (some pv) (some rv) =
          if pv + rv = 0 then none else some (2 * pv * rv / (pv + rv)) := rfl
      rw [heq] at hx
      split at hx
      · cases hx
      · rename_i hsum
        have hval : 2 * pv * rv / (pv + rv) = x := by
          simpa using hx
        obtain ⟨hp0, hp1⟩ := hp pv rfl
        obtain ⟨hr0, hr1⟩ := hr rv rfl
        have hpos : 0 < pv + rv :=
          lt_of_le_of_ne (by linarith) (fun h2 => hsum h2.symm)
        subst hval
        constructor
        · positivity
        · rw [div_le_one hpos]
          nlinarith [mul_nonneg hp0 hr0, mul_nonneg (sub_nonneg.mpr hp1) hr0,
            mul_nonneg (sub_nonneg.mpr hr1) hp0]

/-- C6. In `metrics`, the optional top-k truncation keeps, per qID group, at
most `k` rows of the confidence-descending sort (and only rows of that
sort, in order); a row is predicted positive exactly when
`confidence >= 0.5` (so a confidence of exactly 0.5 is positive);
`tp + fp + tn + fn` equals the number of rows counted; and every returned
accuracy / precision / recall / F1 value is in `[0, 1]` (precision, recall
and F1 being NaN, i.e. `none`, otherwise). -/
theorem metrics_spec :
    (∀ (results : List Row) (kk : ℕ),
      List.Sublist (truncateTopK results (some kk)) (sortByConfDesc results) ∧
      ∀ q, ((truncateTopK results (some kk)).filter
        (fun r => r.qID = q)).length ≤ kk) ∧
    (∀ r : Row, (predictedPositive r ↔ 1 / 2 ≤ r.confidence) ∧
      (r.confidence = 1 / 2 → predictedPositive r)) ∧
    (∀ (results : List Row) (k : Option ℕ),
      tp (truncateTopK results k) + fp (truncateTopK results k) +
        tn (truncateTopK results k) + fn (truncateTopK results k) =
        (truncateTopK results k).length) ∧
    (∀ (results : List Row) (k : Option ℕ) (a : ℚ) (p r f : Option ℚ),
      metrics results k = some (a, p, r, f) →
      (0 ≤ a ∧ a ≤ 1) ∧ (∀ x ∈ p, 0 ≤ x ∧ x ≤ 1) ∧ (∀ x ∈ r, 0 ≤ x ∧ x ≤ 1) ∧
        (∀ x ∈ f, 0 ≤ x ∧ x ≤ 1)) := by
  refine ⟨?_, ?_, ?_, ?_⟩
  · intro results kk
    exact ⟨topKPerGroup_sublist kk _ _, fun q => le_trans (topKPerGroup_count kk q _ _)
      (by omega)⟩
  · intro r
    exact ⟨Iff.rfl, fun h => le_of_eq h.symm⟩
  · intro results k
    exact confusion_partition _
  · intro results k a p r f h
    unfold metrics at h
    split at h
    · cases h
    · rename_i hnz
      simp only [Option.some_inj, Prod.mk.injEq] at h
      obtain ⟨ha, hp, hr, hf⟩ := h
      subst ha
      subst hp
      subst hr
      subst hf
      exact ⟨accuracyOf_bounds hnz, fun x hx => precisionOf_bounds hx,
        fun x hx => recallOf_bounds hx, fscoreOf_bounds
          (fun x hx => precisionOf_bounds hx) (fun x hx => recallOf_bounds hx)⟩

theorem precisionOf_eq_none {t f : ℕ} : precisionOf t f = none ↔ t + f = 0 := by
  unfold precisionOf
  split <;> simp [*]

theorem recallOf_eq_none {t m : ℕ} : recallOf t m = none ↔ t + m = 0 := by
  unfold recallOf
  split <;> simp [*]

theorem fscoreOf_eq_none {p r : Option ℚ} :
    fscoreOf p r = none ↔
      p = none ∨ r = none ∨ ∃ pv rv, p = some pv ∧ r = some rv ∧ pv + rv = 0 := by
  rcases p with _ | pv
  · simp [fscoreOf]
  · rcases r with _ | rv
    · simp [fscoreOf]
    · have heq : fscoreOf (some pv) (some rv) =
          if pv + rv = 0 then none else some (2 * pv * rv / (pv + rv)) := rfl
      rw [heq]
      split <;> rename_i hsum <;> simp [hsum]

/-- C7. In `metrics`, precision is NaN exactly when `tp + fp = 0`, recall
exactly when `tp + fn = 0`, and F1 exactly when precision or recall is
already NaN or their sum (its denominator) is zero; accuracy is unguarded,
so `metrics` raises a division-by-zero error on an empty result set; and
for a result set with no `relevant >= 1` row (`R = 0`),
`average_precision_score` and `normalized_discounted_cumulative_gain` fault
with a division by zero. -/
theorem error_handling_spec :
    (∀ (results : List Row) (k : Option ℕ) (a : ℚ) (p r f : Option ℚ),
      metrics results k = some (a, p, r, f) →
      ((p = none ↔ tp (truncateTopK results k) + fp (truncateTopK results k) = 0) ∧
       (r = none ↔ tp (truncateTopK results k) + fn (truncateTopK results k) = 0) ∧
       (f = none ↔ p = none ∨ r = none ∨
         ∃ pv rv, p = some pv ∧ r = some rv ∧ pv + rv = 0))) ∧
    (∀ k : Option ℕ, metrics [] k = none) ∧
    (∀ results : List Row, (∀ r ∈ results, r.relevant = 0) →
      average_precision_score results = none ∧
      ∀ lg : ℕ → ℚ, normalized_discounted_cumulative_gain lg results = none) := by
  refine ⟨?_, ?_, ?_⟩
  · intro results k a p r f h
    unfold metrics at h
    split at h
    · cases h
    · simp only [Option.some_inj, Prod.mk.injEq] at h
      obtain ⟨ha, hp, hr, hf⟩ := h
      subst hp
      subst hr
      subst hf
      exact ⟨precisionOf_eq_none, recallOf_eq_none, fscoreOf_eq_none⟩
  · intro k
    rcases k with _ | kk <;>
      simp [metrics, truncateTopK, topKPerGroup, sortByConfDesc, List.insertionSort,
        tp, fp, tn, fn]
  · intro results hall
    have hfil : (sortByConfDesc results).filter (fun r => 1 ≤ r.relevant) = [] := by
      rw [List.filter_eq_nil_iff]
      intro r hr
      have hmem : r ∈ results := (List.perm_insertionSort confGE results).subset hr
      simp [hall r hmem]
    have hcr : calculate_ranks results = [] := by
      have hmap := map_snd_calculate_ranks results
      rw [hfil] at hmap
      exact List.map_eq_nil_iff.mp hmap
    refine ⟨?_, ?_⟩
    · simp [average_precision_score, hcr]
    · intro lg
      simp [normalized_discounted_cumulative_gain, hcr]

/-- C7 witness: a one-row set with no positive prediction and no relevant
row (precision, recall and F1 all NaN), and a one-row all-irrelevant set on
which average precision faults. -/
theorem error_handling_spec_witness :
    ((none : Option ℚ) = none ↔
      tp (truncateTopK [⟨1/4, 1, 0, 0⟩] none) +
        fp (truncateTopK [⟨1/4, 1, 0, 0⟩] none) = 0) ∧
      average_precision_score [⟨1/4, 1, 0, 0⟩] = none := by
  constructor
  · exact (error_handling_spec.1 [⟨1/4, 1, 0, 0⟩] none 1 none none none
      (by norm_num [metrics, truncateTopK, tp, fp, tn, fn, predictedPositive,
        accuracyOf, precisionOf, recallOf, fscoreOf])).1
  · exact (error_handling_spec.2.2 [⟨1/4, 1, 0, 0⟩] (by norm_num)).1

theorem nodup_subset_length_le {α : Type} [DecidableEq α] {l1 l2 : List α}
    (h : l1.Nodup) (hs : ∀ a ∈ l1, a ∈ l2) : l1.length ≤ l2.length := by
  have h1 : l1.toFinset.card = l1.length := List.toFinset_card_of_nodup h
  have h2 : l1.toFinset ⊆ l2.toFinset := by
    intro a ha
    simp only [List.mem_toFinset] at ha ⊢
    exact hs a ha
  have h3 : l1.toFinset.card ≤ l2.toFinset.card := Finset.card_le_card h2
  have h4 : l2.toFinset.card ≤ l2.length := l2.toFinset_card_le
  omega

theorem innerLoop_some {α : Type} [DecidableEq α] (ev : List α → ℚ) (added : List α)
    (current : ℚ) :
    ∀ (fs : List α) (best : Option α × ℚ) (f : α) (p : ℚ), 0 ≤ best.2 →
      innerLoop ev added current fs best = (some f, p) →
      best = (some f, p) ∨
        (f ∈ fs ∧ f ∉ added ∧ current < p ∧ 0 < p ∧ p = ev (added ++ [f])) := by
  intro fs
  induction fs with
  | nil =>
    intro best f p _ h
    left
    simpa [innerLoop] using h
  | cons g gs ih =>
    intro best f p h0 h
    by_cases hmem : g ∈ added
    · have hstep : innerLoop ev added current (g :: gs) best =
          innerLoop ev added current gs best := by
        simp [innerLoop, hmem]
      rw [hstep] at h
      rcases ih best f p h0 h with h1 | h1
      · exact Or.inl h1
      · exact Or.inr ⟨List.mem_cons_of_mem _ h1.1, h1.2⟩
    · by_cases hcond : current < ev (added ++ [g]) ∧ best.2 < ev (added ++ [g])
      · have hstep : innerLoop ev added current (g :: gs) best =
            innerLoop ev added current gs (some g, ev (added ++ [g])) := by
          simp [innerLoop, hmem, hcond]
        rw [hstep] at h
        have h0g : (0 : ℚ) ≤ (some g, ev (added ++ [g])).2 :=
          le_of_lt (lt_of_le_of_lt h0 hcond.2)
        rcases ih _ f p h0g h with h1 | h1
        · have hg : g = f ∧ ev (added ++ [g]) = p := by
            simpa [Prod.ext_iff] using h1
          obtain ⟨hgf, hgp⟩ := hg
          subst hgf
          subst hgp
          exact Or.inr ⟨List.mem_cons_self g gs, hmem, hcond.1,
            lt_of_le_of_lt h0 hcond.2, rfl⟩
        · exact Or.inr ⟨List.mem_cons_of_mem _ h1.1, h1.2⟩
      · have hstep : innerLoop ev added current (g :: gs) best =
            innerLoop ev added current gs best := by
          simp [innerLoop, hmem, hcond]
        rw [hstep] at h
        rcases ih best f p h0 h with h1 | h1
        · exact Or.inl h1
        · exact Or.inr ⟨List.mem_cons_of_mem _ h1.1, h1.2⟩

theorem fsLoop_invariant {α : Type} [DecidableEq α] (ev : List α → ℚ) (features : List α) :
    ∀ (fuel : ℕ) (added : List α) (perfs : List ℚ) (current : ℚ),
      added.Nodup → (∀ a ∈ added, a ∈ features) → perfs.length = added.length →
      List.Chain' (· < ·) perfs → (∀ x ∈ perfs, 0 < x) →
      (perfs = [] ∨ perfs.getLast? = some current) →
      (fsLoop ev features fuel added perfs current).1.Nodup ∧
        (∀ a ∈ (fsLoop ev features fuel added perfs current).1, a ∈ features) ∧
        (fsLoop ev features fuel added perfs current).2.length =
          (fsLoop ev features fuel added perfs current).1.length ∧
        List.Chain' (· < ·) (fsLoop ev features fuel added perfs current).2 ∧
        (∀ x ∈ (fsLoop ev features fuel added perfs current).2, 0 < x) := by
  intro fuel
  induction fuel with
  | zero =>
    intro added perfs current h1 h2 h3 h4 h5 _
    exact ⟨h1, h2, h3, h4, h5⟩
  | succ fuel ih =>
    intro added perfs current h1 h2 h3 h4 h5 h6
    by_cases hlt : added.length < features.length
    · rcases hinner : innerLoop ev added current features (none, 0) with ⟨of, bp⟩
      rcases of with _ | f
      · have hstep : fsLoop ev features (fuel + 1) added perfs current = (added, perfs) := by
          simp [fsLoop, hlt, hinner]
        rw [hstep]
        exact ⟨h1, h2, h3, h4, h5⟩
      · have hspec := innerLoop_some ev added current features (none, 0) f bp le_rfl hinner
        rcases hspec with h7 | h7
        · exact absurd h7 (by simp)
        obtain ⟨hfmem, hfnot, hcur, hpos, _⟩ := h7
        have hstep : fsLoop ev features (fuel + 1) added perfs current =
            fsLoop ev features fuel (added ++ [f]) (perfs ++ [bp]) bp := by
          simp [fsLoop, hlt, hinner]
        rw [hstep]
        apply ih
        · simp [List.nodup_append, h1, hfnot]
        · intro a ha
          rcases List.mem_append.mp ha with ha | ha
          · exact h2 a ha
          · simpa using (List.mem_singleton.mp ha) ▸ hfmem
        · simp [h3]
        · rw [List.chain'_append]
          refine ⟨h4, List.chain'_singleton bp, ?_⟩
          intro x hx y hy
          have hy2 : bp = y := by simpa using hy
          rcases h6 with h6 | h6
          · rw [h6] at hx
            cases hx
          · rw [h6] at hx
            have hx2 : current = x := by simpa using hx
            rw [← hx2, ← hy2]
            exact hcur
        · intro x hx
          rcases List.mem_append.mp hx with hx | hx
          · exact h5 x hx
          · rw [List.mem_singleton.mp hx]
            exact hpos
        · right
          simp
    · have hstep : fsLoop ev features (fuel + 1) added perfs current = (added, perfs) := by
        simp [fsLoop, hlt]
      rw [hstep]
      exact ⟨h1, h2, h3, h4, h5⟩

/-- C8. `feature_selection` (over an arbitrary harness evaluation `ev`)
never adds the same feature twice, selects only features from the given
list (hence performs at most `|features|` committing iterations), commits a
feature only when its score strictly exceeds both the running
`current_performance` and 0 (so the returned performances are positive and
strictly increasing, in particular non-decreasing), keeps the performances
list parallel to the selected list, and returns empty lists on an empty
feature set. -/
theorem feature_selection_spec {α : Type} [DecidableEq α] (ev : List α → ℚ)
    (features : List α) :
    (feature_selection ev features).1.Nodup ∧
      (∀ a ∈ (feature_selection ev features).1, a ∈ features) ∧
      (feature_selection ev features).1.length ≤ features.length ∧
      (feature_selection ev features).2.length = (feature_selection ev features).1.length ∧
      List.Chain' (· < ·) (feature_selection ev features).2 ∧
      (∀ x ∈ (feature_selection ev features).2, 0 < x) ∧
      (features = [] → feature_selection ev features = ([], [])) := by
  obtain ⟨i1, i2, i3, i4, i5⟩ := fsLoop_invariant ev features (features.length + 1) [] [] (-1)
    List.nodup_nil (by simp) rfl List.chain'_nil (by simp) (Or.inl rfl)
  refine ⟨i1, i2, nodup_subset_length_le i1 i2, i3, i4, i5, ?_⟩
  intro hempty
  subst hempty
  simp [feature_selection, fsLoop]

/-- C8 witness: selection over two features with the list-length
evaluation; the invariants instantiated there. -/
theorem feature_selection_spec_witness :
    (feature_selection (fun l => (l.length : ℚ)) [1, 2]).1.Nodup ∧
      (feature_selection (fun l => (l.length : ℚ)) [1, 2]).1.length ≤ 2 ∧
      (∀ x ∈ (feature_selection (fun l => (l.length : ℚ)) [(1 : ℕ), 2]).2, 0 < x) := by
  obtain ⟨j1, _, j3, _, j5, j6, _⟩ :=
    feature_selection_spec (fun l : List ℕ => (l.length : ℚ)) [1, 2]
  exact ⟨j1, by simpa using j3, j6⟩

/-- C6 witness: bounds extracted at a concrete two-row result set whose
metrics call returns all ones, including a row at the 0.5 threshold
classified positive. -/
theorem metrics_spec_witness :
    ((0 : ℚ) ≤ 1 ∧ (1 : ℚ) ≤ 1) ∧
      (∀ x ∈ (some (1 : ℚ) : Option ℚ), 0 ≤ x ∧ x ≤ 1) ∧
      (∀ x ∈ (some (1 : ℚ) : Option ℚ), 0 ≤ x ∧ x ≤ 1) ∧
      (∀ x ∈ (some (1 : ℚ) : Option ℚ), 0 ≤ x ∧ x ≤ 1) :=
  metrics_spec.2.2.2 [⟨1/2, 1, 0, 1⟩, ⟨1/4, 1, 1, 0⟩] none 1 (some 1) (some 1) (some 1)
    (by norm_num [metrics, truncateTopK, tp, fp, tn, fn, predictedPositive,
      accuracyOf, precisionOf, recallOf, fscoreOf])

end Evaluation
